import Mathlib

/-!
Verification development for the ingestion-service repository.

The Python sources are shallowly embedded: Python `str` values are modelled
as `List Char`, Python lists as Lean lists, dictionaries as association
lists, and the external collaborators (Confluence connector, Azure OpenAI
clients, Azure Search client) as oracle functions supplied to the embedded
orchestrator.  Loops whose progress depends on configuration values are
given explicit fuel; a `none` result of such a function models a Python
execution that never returns.
-/

namespace Ingestion

/-- Characters treated as whitespace by Python's default `str.split`,
`str.strip` and the regex class of `chunker.py`: space, tab, newline,
carriage return, vertical tab, form feed, the separator controls 28-31,
next line and no-break space. -/
def isPySpace (c : Char) : Bool :=
  c = ' ' || c = '\t' || c = '\n' || c = '\r' || c = '\x0b' || c = '\x0c' ||
    c = '\x1c' || c = '\x1d' || c = '\x1e' || c = '\x1f' || c = '\x85' ||
    c = '\xa0'

/-- Helper for `pyWords`: `acc` holds the reversed current word. -/
def pyWordsAux : List Char → List Char → List (List Char)
  | [], acc => if acc = [] then [] else [acc.reverse]
  | c :: rest, acc =>
    if isPySpace c then
      if acc = [] then pyWordsAux rest [] else acc.reverse :: pyWordsAux rest []
    else pyWordsAux rest (c :: acc)

/-- Python `text.split()` (no separator argument): split on maximal runs of
whitespace, discarding empty pieces.  Embeds the word-count approximation of
tokens used throughout `chunker.py`. -/
def pyWords (s : List Char) : List (List Char) := pyWordsAux s []

/-- Python `' '.join(parts)`. -/
def joinWords : List (List Char) → List Char
  | [] => []
  | [w] => w
  | w :: ws => w ++ ' ' :: joinWords ws

/-- A string that `str.split` would return as a single word: nonempty and
free of whitespace. -/
def IsWord (w : List Char) : Prop :=
  w ≠ [] ∧ ∀ c ∈ w, isPySpace c = false

/-- Normalization of a Python slice endpoint: negative indices count from the
end and are clamped at 0, nonnegative indices are clamped at the length. -/
def pyIdx (n : Nat) (i : Int) : Nat :=
  if i < 0 then (i + n).toNat else min i.toNat n

/-- Python `l[a:b]` for integer indices `a`, `b`. -/
def pySlice {α : Type} (l : List α) (a b : Int) : List α :=
  (l.take (pyIdx l.length b)).drop (pyIdx l.length a)

/-- Python `l[a:]` for an integer index `a`. -/
def pySliceFrom {α : Type} (l : List α) (a : Int) : List α :=
  l.drop (pyIdx l.length a)

/-- The while-loop of `DocumentChunker.chunk_text` (chunker.py lines 46-66),
with explicit fuel: a `none` result models an execution of the Python loop
that never terminates.  `start` is an `Int` because the Python variable can
become negative when `chunk_overlap` exceeds `chunk_size`.  Each iteration
appends the window `words[start:start+chunk_size]` joined by single spaces,
moves `start` to `end - chunk_overlap`, then either continues, emits the
remaining words `words[start:]` as a final chunk, or stops. -/
def chunkTextLoop (cs co : Nat) (words : List (List Char)) :
    Int → Nat → Option (List (List Char))
  | _, 0 => none
  | start, fuel + 1 =>
    if start < (words.length : Int) then
      let chunk := joinWords (pySlice words start (start + (cs : Int)))
      let start2 : Int := start + (cs : Int) - (co : Int)
      if start2 ≤ (words.length : Int) - (cs : Int) then
        (chunkTextLoop cs co words start2 fuel).map (chunk :: ·)
      else if start2 < (words.length : Int) then
        let rest := pySliceFrom words start2
        some (chunk :: (if rest = [] then [] else [joinWords rest]))
      else
        some [chunk]
    else
      some []

/-- `DocumentChunker.chunk_text` (chunker.py lines 23-69): empty text gives
no chunks, text of at most `chunk_size` words is returned whole, otherwise
the sliding-window loop runs.  The fuel `words.length + 2` is sufficient
whenever `chunk_overlap < chunk_size` (see `chunkTextLoop_isSome`); a `none`
result models divergence of the un-guarded Python loop. -/
def chunk_text (cs co : Nat) (text : List Char) : Option (List (List Char)) :=
  if text = [] then some []
  else
    let words := pyWords text
    if words.length ≤ cs then some [text]
    else chunkTextLoop cs co words 0 (words.length + 2)

/-- Sentence-terminating punctuation of the regex in chunk_by_sentences. -/
def sentencePunct (c : Char) : Bool := c = '.' || c = '!' || c = '?'

/-- Whether the previous character allows a sentence separator to start
(the lookbehind of the regex; at the start of the text there is no previous
character and the lookbehind fails). -/
def isPunctOpt : Option Char → Bool
  | some p => sentencePunct p
  | none => false

/-- Scanner for Python re.split over the sentence pattern of chunker.py
line 85: a maximal whitespace run immediately preceded by a character in
the class of `sentencePunct` is a separator.  `inSep` records being inside
a separator run, `prev` is the previous character, `acc` the current piece
reversed.  Ending inside a separator yields a trailing empty piece, as
re.split does. -/
def sentAux : Bool → Option Char → List Char → List Char → List (List Char)
  | false, _, acc, [] => [acc.reverse]
  | true, _, _, [] => [[]]
  | false, prev, acc, c :: rest =>
    if isPySpace c && isPunctOpt prev then
      acc.reverse :: sentAux true (some c) [] rest
    else sentAux false (some c) (c :: acc) rest
  | true, _, _, c :: rest =>
    if isPySpace c then sentAux true (some c) [] rest
    else sentAux false (some c) [c] rest

/-- The sentence split performed at chunker.py line 86. -/
def splitSentences (text : List Char) : List (List Char) :=
  sentAux false none [] text

/-- State of the sentence-accumulation loop of chunk_by_sentences:
the accumulated chunks, the pieces of the current chunk, and the tracked
running word count. -/
structure SentState where
  chunks : List (List Char)
  current : List (List Char)
  size : Nat

/-- Python `prev_words[-chunk_overlap:]` at chunker.py line 109.  Note the
Python quirk: for `chunk_overlap = 0` the slice `[-0:]` is `[0:]`, the whole
list, not the empty suffix. -/
def overlapTail (co : Nat) (ws : List (List Char)) : List (List Char) :=
  if co = 0 then ws else ws.drop (ws.length - co)

/-- One iteration of the for-loop of chunk_by_sentences (chunker.py lines
92-118): either accumulate the sentence, or flush the current chunk and
start a new one seeded with the overlap tail, or (for a sentence longer
than `chunk_size`) append the word-window sub-chunks of the sentence.
`none` propagates divergence of the `chunk_text` fallback. -/
def sentStep (cs co : Nat) (st : SentState) (sentence : List Char) :
    Option SentState :=
  let ssize := (pyWords sentence).length
  if st.size + ssize ≤ cs then
    some ⟨st.chunks, st.current ++ [sentence], st.size + ssize⟩
  else
    let chunks1 := if st.current = [] then st.chunks
                   else st.chunks ++ [joinWords st.current]
    if ssize ≤ cs then
      let overlapWords :=
        match chunks1.getLast? with
        | some prev => overlapTail co (pyWords prev)
        | none => []
      let current2 := if overlapWords = [] then [sentence]
                      else [joinWords overlapWords, sentence]
      some ⟨chunks1, current2, (pyWords (joinWords current2)).length⟩
    else
      match chunk_text cs co sentence with
      | some subs => some ⟨chunks1 ++ subs, [], 0⟩
      | none => none

/-- The for-loop of chunk_by_sentences over the sentence list. -/
def sentLoop (cs co : Nat) : SentState → List (List Char) → Option SentState
  | st, [] => some st
  | st, s :: rest =>
    match sentStep cs co st s with
    | some st2 => sentLoop cs co st2 rest
    | none => none

/-- `DocumentChunker.chunk_by_sentences` (chunker.py lines 71-125): split
into sentences, run the accumulation loop, then flush any remaining current
chunk. -/
def chunk_by_sentences (cs co : Nat) (text : List Char) :
    Option (List (List Char)) :=
  if text = [] then some []
  else
    match sentLoop cs co ⟨[], [], 0⟩ (splitSentences text) with
    | some st => some (if st.current = [] then st.chunks
                       else st.chunks ++ [joinWords st.current])
    | none => none

/-- Loop invariant for the sentence-accumulation loop: all flushed chunks
are bounded by `chunk_size + chunk_overlap` words, and the tracked size is
the word count of the current chunk and is itself so bounded. -/
def SentInv (cs co : Nat) (st : SentState) : Prop :=
  (∀ c ∈ st.chunks, (pyWords c).length ≤ cs + co) ∧
  (pyWords (joinWords st.current)).length = st.size ∧
  st.size ≤ cs + co

/-- The control characters stripped by clean_text (text_cleaner.py line 30):
codes 0-8, 11-12, 14-31 and 127. -/
def isCtrl (c : Char) : Bool :=
  c.toNat ≤ 8 || c.toNat = 11 || c.toNat = 12 ||
    (14 ≤ c.toNat && c.toNat ≤ 31) || c.toNat = 127

/-- First regex substitution of clean_text (text_cleaner.py line 27):
replace every maximal whitespace run by a single space.  `inRun` records
whether the previous character was whitespace. -/
def collapseWsAux : Bool → List Char → List Char
  | _, [] => []
  | inRun, c :: rest =>
    if isPySpace c then
      if inRun then collapseWsAux true rest
      else ' ' :: collapseWsAux true rest
    else c :: collapseWsAux false rest

def collapseWs (s : List Char) : List Char := collapseWsAux false s

/-- Second substitution of clean_text (text_cleaner.py line 30): remove the
control characters. -/
def stripCtrl (s : List Char) : List Char := s.filter (fun c => !(isCtrl c))

/-- Python text.replace of CRLF by LF (text_cleaner.py line 33),
left-to-right and non-overlapping. -/
def replaceCRLF : List Char → List Char
  | [] => []
  | [c] => [c]
  | c :: d :: rest =>
    if c = '\r' ∧ d = '\n' then '\n' :: replaceCRLF rest
    else c :: replaceCRLF (d :: rest)

/-- Python text.replace of CR by LF (text_cleaner.py line 33). -/
def replaceCR (s : List Char) : List Char :=
  s.map (fun c => if c = '\r' then '\n' else c)

/-- Last substitution of clean_text (text_cleaner.py line 36): every run of
three or more newlines becomes exactly two.  `k` counts the newlines already
emitted in the current run. -/
def collapseNlAux : Nat → List Char → List Char
  | _, [] => []
  | k, c :: rest =>
    if c = '\n' then
      if k < 2 then '\n' :: collapseNlAux (k + 1) rest
      else collapseNlAux k rest
    else c :: collapseNlAux 0 rest

def collapseNl (s : List Char) : List Char := collapseNlAux 0 s

/-- Python str.strip(). -/
def pyStrip (s : List Char) : List Char :=
  ((s.dropWhile isPySpace).reverse.dropWhile isPySpace).reverse

/-- `TextCleaner.clean_text` (text_cleaner.py lines 13-41): the exact
composition, in source order, of whitespace collapsing, control-character
stripping, CRLF and CR normalization, newline-run capping, and stripping. -/
def clean_text (text : List Char) : List Char :=
  if text = [] then []
  else
    pyStrip (collapseNl (replaceCR (replaceCRLF (stripCtrl (collapseWs text)))))

/-- A source document (the Document dataclass of base_connector.py).
Dates are opaque strings; `metadata` is modelled as a string-to-string
association list (the only values the embedded code reads are strings). -/
structure Document where
  id : List Char
  title : List Char
  content : List Char
  url : List Char
  author : List Char
  source : List Char
  created_date : List Char
  modified_date : List Char
  tags : List (List Char)
  metadata : List (List Char × List Char)
deriving DecidableEq

/-- The ProcessedChunk dataclass of document_parser.py. -/
structure ProcessedChunk where
  id : List Char
  content : List Char
  title : List Char
  url : List Char
  author : List Char
  source : List Char
  created_date : List Char
  modified_date : List Char
  tags : List (List Char)
  space_key : List Char
  metadata : List (List Char × List Char)
  chunk_index : Nat
  total_chunks : Nat
deriving DecidableEq

/-- Python dict.get(key, default) over the association-list model. -/
def dictGet (d : List (List Char × List Char)) (k dflt : List Char) :
    List Char :=
  match d.lookup k with
  | some v => v
  | none => dflt

/-- Python dict unpacking with one added key, as in
document_parser.py lines 86-89: an existing key keeps its position with the
new value, otherwise the pair is appended at the end. -/
def dictSet (d : List (List Char × List Char)) (k v : List Char) :
    List (List Char × List Char) :=
  if (d.lookup k).isSome then d.map (fun p => if p.1 = k then (k, v) else p)
  else d ++ [(k, v)]

/-- Decimal rendering of a natural number, as Python str(n). -/
def natStr (n : Nat) : List Char := (Nat.repr n).data

/-- `DocumentParser.process_document` (document_parser.py lines 45-102):
clean the content, chunk it by sentences, and build the ProcessedChunk
list, with id `{document.id}_chunk_{index}`, provenance copied from the
document, space_key from metadata (default empty) and metadata extended
with original_doc_id.  All embedded operations are total, so the Python
per-document try/except has nothing to catch; `none` propagates divergence
of the chunker. -/
def process_document (cs co : Nat) (document : Document) :
    Option (List ProcessedChunk) :=
  let cleaned := clean_text document.content
  if cleaned = [] then some []
  else
    match chunk_by_sentences cs co cleaned with
    | none => none
    | some chunks =>
      if chunks = [] then some []
      else
        some (chunks.enum.map (fun p =>
          { id := document.id ++ ("_chunk_".data) ++ natStr p.1
            content := p.2
            title := document.title
            url := document.url
            author := document.author
            source := document.source
            created_date := document.created_date
            modified_date := document.modified_date
            tags := document.tags
            space_key := dictGet document.metadata ("space_key".data) []
            metadata := dictSet document.metadata ("original_doc_id".data)
              document.id
            chunk_index := p.1
            total_chunks := chunks.length }))

/-- `DocumentParser.process_documents` (document_parser.py lines 104-123):
process the documents in order and concatenate their chunks. -/
def process_documents (cs co : Nat) :
    List Document → Option (List ProcessedChunk)
  | [] => some []
  | d :: rest =>
    match process_document cs co d, process_documents cs co rest with
    | some c, some r => some (c ++ r)
    | _, _ => none

/-- The document of the end-to-end example: id d1 and the three-sentence
content fixed by the claim, other fields chosen arbitrarily. -/
def docD1 : Document :=
  { id := "d1".data, title := "t".data,
    content := "Sentence one. Sentence two. Sentence three.".data,
    url := "u".data, author := "a".data, source := "s".data,
    created_date := "c".data, modified_date := "m".data,
    tags := [], metadata := [] }

/-- The two chunks that the end-to-end example document produces with
chunk_size 4 and chunk_overlap 1. -/
def d1Chunks : List ProcessedChunk :=
  [{ id := "d1_chunk_0".data,
     content := "Sentence one. Sentence two.".data,
     title := "t".data, url := "u".data, author := "a".data,
     source := "s".data, created_date := "c".data,
     modified_date := "m".data, tags := [], space_key := [],
     metadata := [("original_doc_id".data, "d1".data)],
     chunk_index := 0, total_chunks := 2 },
   { id := "d1_chunk_1".data,
     content := "two. Sentence three.".data,
     title := "t".data, url := "u".data, author := "a".data,
     source := "s".data, created_date := "c".data,
     modified_date := "m".data, tags := [], space_key := [],
     metadata := [("original_doc_id".data, "d1".data)],
     chunk_index := 1, total_chunks := 2 }]

/-- Result record of SearchService.upload_documents (search_service.py
lines 193-270): the per-item success and failure counts it returns. -/
structure UploadResult where
  uploaded : Nat
  failed : Nat

/-- The batch loop of EmbeddingService.embed_chunks (embedding_service.py
lines 76-102), with fuel: each step takes the next `bs` chunks, asks the
embedding oracle `gen` for the vectors of their contents (a `none` answer
models generate_embeddings raising after its retries are exhausted), zips
chunks and vectors positionally on success, and skips the batch on failure,
continuing with the rest.  For `bs ≥ 1`, fuel `l.length` is sufficient. -/
def embedLoop {E : Type} (gen : List (List Char) → Option (List E))
    (bs : Nat) : Nat → List ProcessedChunk → List (ProcessedChunk × E)
  | _, [] => []
  | 0, _ :: _ => []
  | fuel + 1, c :: rest =>
    let batch := (c :: rest).take bs
    match gen (batch.map (fun ch => ch.content)) with
    | some embs => batch.zip embs ++ embedLoop gen bs fuel ((c :: rest).drop bs)
    | none => embedLoop gen bs fuel ((c :: rest).drop bs)

/-- `EmbeddingService.embed_chunks` (embedding_service.py lines 66-102). -/
def embed_chunks {E : Type} (gen : List (List Char) → Option (List E))
    (bs : Nat) (chunks : List ProcessedChunk) : List (ProcessedChunk × E) :=
  embedLoop gen bs chunks.length chunks

/-- The stages of run_full_sync, recorded in an execution trace. -/
inductive SyncStep
  | createIndex
  | clearIndex
  | connect
  | fetchDocs
  | parseDocs
  | embedChunks
  | uploadChunks
deriving DecidableEq

/-- The stats dictionary of run_full_sync (sync_orchestrator.py lines
49-58), without the wall-clock fields (start/end time and duration carry
no checkable information in this embedding). -/
structure SyncStats where
  documents_fetched : Nat
  chunks_created : Nat
  chunks_embedded : Nat
  chunks_uploaded : Nat
  failed_uploads : Nat
  errors : List (List Char)
  success : Bool
deriving DecidableEq

/-- The external collaborators of one run of SyncOrchestrator, as oracles:
the documents the connector returns, the embedding oracle with its batch
size, and the upload result.  The stages create_or_update_index,
clear_index, connect and upload_documents are modelled as returning
normally: the claims under scrutiny concern runs with no fatal exception,
where the except-branch of sync_orchestrator.py lines 113-117 never runs. -/
structure SyncEnv (E : Type) where
  fetched : List Document
  gen : List (List Char) → Option (List E)
  batch_size : Nat
  uploadRes : List (ProcessedChunk × E) → UploadResult

/-- `SyncOrchestrator.run_full_sync` (sync_orchestrator.py lines 37-145):
the exact control flow of the try-block, including the early returns for
zero documents (line 78), zero chunks (line 88) and empty embedded set
(line 98).  The returned trace records which stages ran; `none` propagates
divergence of the chunker. -/
def run_full_sync {E : Type} (cs co : Nat) (env : SyncEnv E) :
    Option (SyncStats × List SyncStep) :=
  let stats0 : SyncStats := ⟨0, 0, 0, 0, 0, [], false⟩
  let trace0 := [SyncStep.createIndex, SyncStep.clearIndex, SyncStep.connect,
    SyncStep.fetchDocs]
  let stats1 := { stats0 with documents_fetched := env.fetched.length }
  if env.fetched = [] then
    some ({ stats1 with success := true }, trace0)
  else
    match process_documents cs co env.fetched with
    | none => none
    | some chunks =>
      let stats2 := { stats1 with chunks_created := chunks.length }
      let trace1 := trace0 ++ [SyncStep.parseDocs]
      if chunks = [] then some ({ stats2 with success := true }, trace1)
      else
        let cwe := embed_chunks env.gen env.batch_size chunks
        let stats3 := { stats2 with chunks_embedded := cwe.length }
        let trace2 := trace1 ++ [SyncStep.embedChunks]
        if cwe.isEmpty then some (stats3, trace2)
        else
          let ur := env.uploadRes cwe
          some ({ stats3 with
                  chunks_uploaded := ur.uploaded
                  failed_uploads := ur.failed
                  success := true },
            trace2 ++ [SyncStep.uploadChunks])

/-- A retrieved chunk, as the dict built by query_service.py lines 82-95
restricted to the keys that _build_context and _extract_sources read.
query_service always fills these keys; a document with no url is stored
with url equal to the empty string, which is also what chunk.get of a
missing url key yields through its default. -/
structure RetrievedChunk where
  content : List Char
  title : List Char
  url : List Char
  author : List Char
  source : List Char
deriving DecidableEq

/-- A source citation as built by _extract_sources
(chat_service.py lines 142-147). -/
structure SourceCitation where
  title : List Char
  url : List Char
  author : List Char
  source : List Char
deriving DecidableEq

def mkCitation (c : RetrievedChunk) : SourceCitation :=
  ⟨c.title, c.url, c.author, c.source⟩

/-- The loop of ChatService._extract_sources (chat_service.py lines
134-150); `seen` is the seen_urls set. -/
def extractSourcesAux :
    List RetrievedChunk → List (List Char) → List SourceCitation
  | [], _ => []
  | c :: rest, seen =>
    if c.url ≠ [] ∧ c.url ∉ seen then
      mkCitation c :: extractSourcesAux rest (c.url :: seen)
    else extractSourcesAux rest seen

def extract_sources (chunks : List RetrievedChunk) : List SourceCitation :=
  extractSourcesAux chunks []

/-- The spec-side description of source extraction, written from the
spec's words (keep the first occurrence per unique URL, in order of first
appearance, not re-sorted), for comparison with `extract_sources`: keep
each chunk with a nonempty url that has not appeared earlier, dropping all
later chunks with the same url. -/
def firstByUrl : List RetrievedChunk → List RetrievedChunk
  | [] => []
  | c :: rest =>
    if c.url = [] then firstByUrl rest
    else c :: firstByUrl (rest.filter (fun c2 => c2.url ≠ c.url))
termination_by l => l.length
decreasing_by
  all_goals simp only [List.length_cons]
  · omega
  · have := List.length_filter_le
      (fun c2 => decide (c2.url ≠ c.url)) rest
    omega

/-- Python str.join with a separator (chat_service.py line 111). -/
def joinSep (sep : List Char) : List (List Char) → List Char
  | [] => []
  | [p] => p
  | p :: ps => p ++ sep ++ joinSep sep ps

/-- The per-chunk block of _build_context (chat_service.py lines 104-109):
source number (1-based), title, author, content. -/
def contextPart (i : Nat) (c : RetrievedChunk) : List Char :=
  ("[Source ".data) ++ natStr i ++ ("] ".data) ++ c.title ++
    ("\nAuthor: ".data) ++ c.author ++ ("\nContent: ".data) ++ c.content ++
    ("\n".data)

/-- ChatService._build_context (chat_service.py lines 98-111). -/
def build_context (chunks : List RetrievedChunk) : List Char :=
  if chunks = [] then ("No relevant information found.".data)
  else joinSep ("\n---\n".data)
    (chunks.enum.map (fun p => contextPart (p.1 + 1) p.2))

/-- ChatService._build_user_prompt (chat_service.py lines 113-120). -/
def build_user_prompt (question context : List Char) : List Char :=
  ("Context information:\n".data) ++ context ++
    ("\n\nQuestion: ".data) ++ question ++
    ("\n\nPlease provide a comprehensive answer based on the context provided above. If the context doesn\x27t contain enough information to answer the question, please state that clearly.".data)

/-- The default system prompt of chat_service.py lines 122-132. -/
def default_system_prompt : List Char :=
  ("You are a helpful AI assistant that answers questions based on the provided context from a knowledge base.\n\nInstructions:\n- Answer the question using ONLY the information provided in the context\n- Be specific and cite which source(s) you used when possible\n- If the context doesn\x27t contain enough information, clearly state that\n- Be concise but thorough in your explanations\n- Use a professional and friendly tone\n- If you find conflicting information in the sources, acknowledge it".data)

/-- The reply of the chat-completion collaborator, with its usage. -/
structure ChatReply where
  text : List Char
  prompt_tokens : Nat
  completion_tokens : Nat
  total_tokens : Nat

/-- The result dict of ChatService.generate_answer
(chat_service.py lines 80-89). -/
structure AnswerResult where
  answer : List Char
  model : List Char
  prompt_tokens : Nat
  completion_tokens : Nat
  total_tokens : Nat
  sources : List SourceCitation

/-- ChatService.generate_answer (chat_service.py lines 35-96): build the
context from the retrieved chunks and the two prompts, call the
chat-completion oracle once, and return the answer together with the
extracted source citations. -/
def generate_answer (deployment : List Char)
    (chat : List Char → List Char → ChatReply) (question : List Char)
    (context_chunks : List RetrievedChunk) (system_prompt : List Char) :
    AnswerResult :=
  let context := build_context context_chunks
  let sys := if system_prompt = [] then default_system_prompt
             else system_prompt
  let reply := chat sys (build_user_prompt question context)
  { answer := reply.text, model := deployment,
    prompt_tokens := reply.prompt_tokens,
    completion_tokens := reply.completion_tokens,
    total_tokens := reply.total_tokens,
    sources := extract_sources context_chunks }

/-- A concrete chunk family used by witnesses. -/
def tChunk (i : Nat) : ProcessedChunk :=
  { id := natStr i, content := natStr i, title := [], url := [],
    author := [], source := [], created_date := [], modified_date := [],
    tags := [], space_key := [], metadata := [], chunk_index := i,
    total_chunks := 6 }

/-- A concrete embedding oracle that fails exactly on the batch holding
the contents of tChunk 3 and tChunk 4. -/
def tGen : List (List Char) → Option (List Nat) :=
  fun ts =>
    if ts = [(tChunk 3).content, (tChunk 4).content] then none
    else some (ts.map (fun t => t.length))

/-- A sync environment whose source returns no documents. -/
def env0 : SyncEnv Nat := ⟨[], fun _ => none, 1, fun _ => ⟨0, 0⟩⟩

/-- A sync environment with one document whose embedding calls always
fail. -/
def env1 : SyncEnv Nat := ⟨[docD1], fun _ => none, 16, fun _ => ⟨0, 0⟩⟩

/-- A retrieved chunk with an empty url, for the witnesses. -/
def noUrlChunk : RetrievedChunk :=
  ⟨"x".data, "tX".data, [], "aX".data, "s".data⟩

-- Theorems ------------------------------------------------------------

theorem isPySpace_space : isPySpace ' ' = true := rfl

theorem joinWords_cons_cons (w x : List Char) (ws : List (List Char)) :
    joinWords (w :: x :: ws) = w ++ ' ' :: joinWords (x :: ws) := rfl

theorem pyWordsAux_word_prefix (w : List Char) (hw : ∀ c ∈ w, isPySpace c = false) :
    ∀ rest acc, pyWordsAux (w ++ rest) acc = pyWordsAux rest (w.reverse ++ acc) := by
  induction w with
  | nil => intro rest acc; simp
  | cons c cs ih =>
    intro rest acc
    have hc : isPySpace c = false := hw c (by simp)
    have ih' := ih (fun x hx => hw x (by simp [hx])) rest (c :: acc)
    simp only [List.cons_append, pyWordsAux, hc, if_false, Bool.false_eq_true,
      List.append_eq]
    rw [ih']
    simp

theorem pyWordsAux_append_space (b : List Char) :
    ∀ (a acc : List Char),
      pyWordsAux (a ++ ' ' :: b) acc = pyWordsAux a acc ++ pyWordsAux b [] := by
  intro a
  induction a with
  | nil =>
    intro acc
    by_cases hacc : acc = []
    · subst hacc; simp [pyWordsAux, isPySpace_space]
    · simp [pyWordsAux, isPySpace_space, hacc]
  | cons c rest ih =>
    intro acc
    by_cases hc : isPySpace c
    · by_cases hacc : acc = []
      · subst hacc
        simp only [List.cons_append, pyWordsAux, hc, if_true, List.append_eq]
        simpa using ih []
      · simp only [List.cons_append, pyWordsAux, hc, if_true, hacc, if_false,
          List.append_eq]
        rw [ih []]
    · have hc' : isPySpace c = false := by simpa using hc
      simp only [List.cons_append, pyWordsAux, hc', Bool.false_eq_true, if_false,
        List.append_eq]
      exact ih (c :: acc)

theorem pyWords_append_space (a b : List Char) :
    pyWords (a ++ ' ' :: b) = pyWords a ++ pyWords b := by
  simpa [pyWords] using pyWordsAux_append_space b a []

theorem pyWords_single_word (w : List Char) (hw : IsWord w) : pyWords w = [w] := by
  obtain ⟨hne, hall⟩ := hw
  have h := pyWordsAux_word_prefix w hall [] []
  simp only [List.append_nil] at h
  unfold pyWords
  rw [h]
  simp [pyWordsAux, hne]

theorem pyWords_joinWords (ws : List (List Char)) (h : ∀ w ∈ ws, IsWord w) :
    pyWords (joinWords ws) = ws := by
  induction ws with
  | nil => simp [joinWords, pyWords, pyWordsAux]
  | cons w rest ih =>
    cases rest with
    | nil => simpa [joinWords] using pyWords_single_word w (h w (by simp))
    | cons x rest' =>
      rw [joinWords_cons_cons, pyWords_append_space,
        pyWords_single_word w (h w (by simp)),
        ih (fun v hv => h v (by simp [hv]))]
      rfl

theorem pyWordsAux_isWord (s : List Char) :
    ∀ acc, (∀ c ∈ acc, isPySpace c = false) →
      ∀ w ∈ pyWordsAux s acc, w = [] → False := by
  induction s with
  | nil =>
    intro acc _ w hw
    by_cases hacc : acc = []
    · simp [pyWordsAux, hacc] at hw
    · simp only [pyWordsAux, hacc, if_false] at hw
      simp only [List.mem_singleton] at hw
      subst hw
      intro hrev
      exact hacc (by simpa using hrev)
  | cons c rest ih =>
    intro acc hacc w hw
    by_cases hc : isPySpace c
    · by_cases hn : acc = []
      · exact ih [] (by simp) w (by simpa [pyWordsAux, hc, hn] using hw)
      · simp only [pyWordsAux, hc, if_true, hn, if_false, List.mem_cons] at hw
        rcases hw with hw | hw
        · subst hw
          intro hrev
          exact hn (by simpa using hrev)
        · exact ih [] (by simp) w hw
    · have hc' : isPySpace c = false := by simpa using hc
      refine ih (c :: acc) ?_ w (by simpa [pyWordsAux, hc'] using hw)
      intro x hx
      rcases List.mem_cons.mp hx with hx | hx
      · subst hx; exact hc'
      · exact hacc x hx

theorem pyWordsAux_isWord_chars (s : List Char) :
    ∀ acc, (∀ c ∈ acc, isPySpace c = false) →
      ∀ w ∈ pyWordsAux s acc, ∀ c ∈ w, isPySpace c = false := by
  induction s with
  | nil =>
    intro acc hacc w hw
    by_cases hn : acc = []
    · simp [pyWordsAux, hn] at hw
    · simp only [pyWordsAux, hn, if_false] at hw
      simp only [List.mem_singleton] at hw
      subst hw
      intro c hc
      exact hacc c (by simpa using hc)
  | cons c rest ih =>
    intro acc hacc w hw
    by_cases hc : isPySpace c
    · by_cases hn : acc = []
      · exact ih [] (by simp) w (by simpa [pyWordsAux, hc, hn] using hw)
      · simp only [pyWordsAux, hc, if_true, hn, if_false, List.mem_cons] at hw
        rcases hw with hw | hw
        · subst hw
          intro x hx
          exact hacc x (by simpa using hx)
        · exact ih [] (by simp) w hw
    · have hc' : isPySpace c = false := by simpa using hc
      refine ih (c :: acc) ?_ w (by simpa [pyWordsAux, hc'] using hw)
      intro x hx
      rcases List.mem_cons.mp hx with hx | hx
      · subst hx; exact hc'
      · exact hacc x hx

theorem pyWords_isWord (s : List Char) : ∀ w ∈ pyWords s, IsWord w := by
  intro w hw
  exact ⟨fun h => pyWordsAux_isWord s [] (by simp) w hw h,
    pyWordsAux_isWord_chars s [] (by simp) w hw⟩

theorem joinWords_append_single (xs : List (List Char)) (y : List Char)
    (hxs : xs ≠ []) : joinWords (xs ++ [y]) = joinWords xs ++ ' ' :: y := by
  induction xs with
  | nil => simp at hxs
  | cons w rest ih =>
    cases rest with
    | nil => simp [joinWords]
    | cons x rest' =>
      have h := ih (by simp)
      simp only [List.cons_append] at h ⊢
      rw [joinWords_cons_cons, joinWords_cons_cons, h]
      simp

theorem wordCount_join_append (xs : List (List Char)) (y : List Char) :
    (pyWords (joinWords (xs ++ [y]))).length
      = (pyWords (joinWords xs)).length + (pyWords y).length := by
  cases hxs : xs with
  | nil => simp [joinWords, pyWords, pyWordsAux]
  | cons w rest =>
    rw [← hxs, joinWords_append_single xs y (by simp [hxs]),
      pyWords_append_space]
    simp

theorem wordCount_join_pair (a b : List Char) :
    (pyWords (joinWords [a, b])).length
      = (pyWords a).length + (pyWords b).length := by
  rw [joinWords_cons_cons, pyWords_append_space]
  simp [joinWords]

theorem pyIdx_le (n : Nat) (i : Int) : pyIdx n i ≤ n := by
  unfold pyIdx; split <;> omega

theorem pyIdx_add_le (n : Nat) (a : Int) (k : Nat) :
    pyIdx n (a + k) ≤ pyIdx n a + k := by
  unfold pyIdx; split <;> split <;> omega

theorem take_min_of_length_le {α : Type} (l : List α) (m n : Nat)
    (h : l.length ≤ n) : l.take (min m n) = l.take m := by
  rcases le_total m n with hmn | hmn
  · rw [min_eq_left hmn]
  · rw [min_eq_right hmn, List.take_of_length_le h,
      List.take_of_length_le (le_trans h hmn)]

theorem drop_min_of_length_le {α : Type} (l : List α) (m n : Nat)
    (h : l.length ≤ n) : l.drop (min m n) = l.drop m := by
  rcases le_total m n with hmn | hmn
  · rw [min_eq_left hmn]
  · rw [min_eq_right hmn, List.drop_eq_nil_of_le h,
      List.drop_eq_nil_of_le (le_trans h hmn)]

theorem pySliceFrom_nonneg {α : Type} (l : List α) (a : Int) (ha : 0 ≤ a) :
    pySliceFrom l a = l.drop a.toNat := by
  unfold pySliceFrom pyIdx
  rw [if_neg (by omega)]
  exact drop_min_of_length_le l a.toNat l.length (le_refl _)

theorem pySliceFrom_subset {α : Type} (l : List α) (a : Int) :
    ∀ x ∈ pySliceFrom l a, x ∈ l := by
  intro x hx
  exact List.drop_subset _ _ hx

theorem pySlice_nonneg {α : Type} (l : List α) (a : Int) (k : Nat) (ha : 0 ≤ a) :
    pySlice l a (a + k) = (l.drop a.toNat).take k := by
  unfold pySlice pyIdx
  rw [if_neg (by omega), if_neg (by omega)]
  have h1 : (a + (k : Int)).toNat = a.toNat + k := by omega
  rw [h1, take_min_of_length_le l _ _ (le_refl _),
    drop_min_of_length_le _ _ _ (by rw [List.length_take]; omega),
    List.drop_take]
  congr 1
  omega

theorem pySlice_length_le {α : Type} (l : List α) (a : Int) (k : Nat) :
    (pySlice l a (a + k)).length ≤ k := by
  unfold pySlice
  have h := pyIdx_add_le l.length a k
  simp only [List.length_drop, List.length_take]
  omega

theorem pySlice_subset {α : Type} (l : List α) (a b : Int) :
    ∀ x ∈ pySlice l a b, x ∈ l := by
  intro x hx
  exact List.take_subset _ _ (List.drop_subset _ _ hx)

theorem pySliceFrom_length {α : Type} (l : List α) (a : Int) :
    (pySliceFrom l a).length = l.length - pyIdx l.length a := by
  unfold pySliceFrom
  simp [List.length_drop]

theorem chunkTextLoop_isSome (cs co : Nat) (words : List (List Char))
    (hco : co < cs) :
    ∀ (fuel : Nat) (start : Int), 0 ≤ start → 1 ≤ fuel →
      (words.length : Int) - start + 1 ≤ (fuel : Int) →
      (chunkTextLoop cs co words start fuel).isSome := by
  intro fuel
  induction fuel with
  | zero => intro start _ h1 _; omega
  | succ f ih =>
    intro start h0 _ hf
    unfold chunkTextLoop
    by_cases hlt : start < (words.length : Int)
    · rw [if_pos hlt]
      set start2 : Int := start + (cs : Int) - (co : Int) with hs2
      by_cases hc : start2 ≤ (words.length : Int) - (cs : Int)
      · rw [if_pos hc]
        have hrec := ih start2 (by omega) (by omega) (by omega)
        rcases Option.isSome_iff_exists.mp hrec with ⟨v, hv⟩
        simp [hv]
      · rw [if_neg hc]
        by_cases hlt2 : start2 < (words.length : Int)
        · rw [if_pos hlt2]; simp
        · rw [if_neg hlt2]; simp
    · rw [if_neg hlt]; simp

theorem chunkTextLoop_bound (cs co : Nat) (words : List (List Char))
    (hW : ∀ w ∈ words, IsWord w) :
    ∀ (fuel : Nat) (start : Int) (chunks : List (List Char)),
      chunkTextLoop cs co words start fuel = some chunks →
      ∀ c ∈ chunks, (pyWords c).length ≤ cs := by
  intro fuel
  induction fuel with
  | zero => intro start chunks h; simp [chunkTextLoop] at h
  | succ f ih =>
    intro start chunks h c hc
    unfold chunkTextLoop at h
    by_cases hlt : start < (words.length : Int)
    · rw [if_pos hlt] at h
      have hchunk : (pyWords (joinWords (pySlice words start (start + (cs : Int))))).length ≤ cs := by
        rw [pyWords_joinWords _ (fun w hw => hW w (pySlice_subset _ _ _ w hw))]
        exact pySlice_length_le words start cs
      set start2 : Int := start + (cs : Int) - (co : Int) with hs2
      by_cases hcont : start2 ≤ (words.length : Int) - (cs : Int)
      · rw [if_pos hcont] at h
        rcases Option.map_eq_some'.mp h with ⟨restChunks, hrest, hcons⟩
        subst hcons
        rcases List.mem_cons.mp hc with hc | hc
        · subst hc; exact hchunk
        · exact ih start2 restChunks hrest c hc
      · rw [if_neg hcont] at h
        by_cases hlt2 : start2 < (words.length : Int)
        · rw [if_pos hlt2] at h
          simp only [Option.some.injEq] at h
          subst h
          rcases List.mem_cons.mp hc with hc1 | hc1
          · subst hc1; exact hchunk
          · by_cases hre : pySliceFrom words start2 = []
            · rw [if_pos hre] at hc1; simp at hc1
            · rw [if_neg hre] at hc1
              simp only [List.mem_singleton] at hc1
              subst hc1
              rw [pyWords_joinWords _
                (fun w hw => hW w (pySliceFrom_subset _ _ w hw))]
              rw [pySliceFrom_length]
              have h1 := pyIdx_le words.length start2
              have h2 : (words.length : Int) - (cs : Int) < start2 := by omega
              unfold pyIdx
              split <;> omega
        · rw [if_neg hlt2] at h
          simp only [Option.some.injEq] at h
          subst h
          simp only [List.mem_singleton] at hc
          subst hc
          exact hchunk
    · rw [if_neg hlt] at h
      simp only [Option.some.injEq] at h
      subst h
      simp at hc

theorem chunkTextLoop_coverage (cs co : Nat) (words : List (List Char))
    (hW : ∀ w ∈ words, IsWord w) (hco : co < cs) :
    ∀ (fuel : Nat) (start : Int) (chunks : List (List Char)), 0 ≤ start →
      chunkTextLoop cs co words start fuel = some chunks →
      List.Sublist (words.drop start.toNat) ((chunks.map pyWords).flatten) := by
  intro fuel
  induction fuel with
  | zero => intro start chunks _ h; simp [chunkTextLoop] at h
  | succ f ih =>
    intro start chunks h0 h
    unfold chunkTextLoop at h
    by_cases hlt : start < (words.length : Int)
    · rw [if_pos hlt] at h
      have hslice : pySlice words start (start + (cs : Int))
          = (words.drop start.toNat).take cs := pySlice_nonneg words start cs h0
      have hpw : pyWords (joinWords (pySlice words start (start + (cs : Int))))
          = pySlice words start (start + (cs : Int)) :=
        pyWords_joinWords _ (fun w hw => hW w (pySlice_subset _ _ _ w hw))
      have hsplit : words.drop start.toNat
          = pySlice words start (start + (cs : Int))
            ++ words.drop (start.toNat + cs) := by
        rw [hslice, ← List.drop_drop]
        exact (List.take_append_drop cs (words.drop start.toNat)).symm
      set start2 : Int := start + (cs : Int) - (co : Int) with hs2
      have h02 : 0 ≤ start2 := by omega
      have hs2le : start2.toNat ≤ start.toNat + cs := by omega
      have hdrop2 : List.Sublist (words.drop (start.toNat + cs)) (words.drop start2.toNat) := by
        have : words.drop (start.toNat + cs)
            = (words.drop start2.toNat).drop (start.toNat + cs - start2.toNat) := by
          rw [List.drop_drop]
          congr 1
          omega
        rw [this]
        exact List.drop_sublist _ _
      by_cases hcont : start2 ≤ (words.length : Int) - (cs : Int)
      · rw [if_pos hcont] at h
        rcases Option.map_eq_some'.mp h with ⟨restChunks, hrest, hcons⟩
        subst hcons
        have hihh := ih start2 restChunks h02 hrest
        rw [List.map_cons, List.flatten_cons, hpw, hsplit]
        exact List.Sublist.append_left (hdrop2.trans hihh) _
      · rw [if_neg hcont] at h
        by_cases hlt2 : start2 < (words.length : Int)
        · rw [if_pos hlt2] at h
          simp only [Option.some.injEq] at h
          have hresteq : pySliceFrom words start2 = words.drop start2.toNat :=
            pySliceFrom_nonneg words start2 h02
          have hrne : pySliceFrom words start2 ≠ [] := by
            rw [hresteq]
            intro hnil
            have hl := List.length_drop start2.toNat words
            rw [hnil] at hl
            simp only [List.length_nil] at hl
            omega
          rw [if_neg hrne] at h
          subst h
          rw [List.map_cons, List.map_cons, List.map_nil, List.flatten_cons,
            List.flatten_cons, List.flatten_nil, List.append_nil, hpw,
            pyWords_joinWords _
              (fun w hw => hW w (pySliceFrom_subset _ _ w hw)),
            hsplit, hresteq]
          exact List.Sublist.append_left hdrop2 _
        · rw [if_neg hlt2] at h
          simp only [Option.some.injEq] at h
          subst h
          rw [List.map_cons, List.map_nil, List.flatten_cons, List.flatten_nil,
            List.append_nil, hpw, hslice]
          have hlen : words.length - start.toNat ≤ cs := by omega
          rw [List.take_of_length_le (by rw [List.length_drop]; omega)]
    · rw [if_neg hlt] at h
      simp only [Option.some.injEq] at h
      subst h
      rw [List.drop_eq_nil_of_le (by omega)]
      simp

theorem chunk_text_bound (cs co : Nat) (text : List Char)
    (chunks : List (List Char)) (h : chunk_text cs co text = some chunks) :
    ∀ c ∈ chunks, (pyWords c).length ≤ cs := by
  unfold chunk_text at h
  by_cases hte : text = []
  · rw [if_pos hte] at h
    rcases Option.some.injEq _ _ ▸ h with h
    subst h
    simp
  · rw [if_neg hte] at h
    by_cases hlen : (pyWords text).length ≤ cs
    · rw [if_pos hlen] at h
      rcases Option.some.injEq _ _ ▸ h with h
      subst h
      intro c hc
      simp only [List.mem_singleton] at hc
      subst hc
      exact hlen
    · rw [if_neg hlen] at h
      exact chunkTextLoop_bound cs co (pyWords text) (pyWords_isWord text) _ 0 chunks h

theorem chunk_text_coverage (cs co : Nat) (text : List Char)
    (hco : co < cs) (hte : text ≠ []) :
    ∃ chunks, chunk_text cs co text = some chunks ∧
      List.Sublist (pyWords text) ((chunks.map pyWords).flatten) := by
  unfold chunk_text
  rw [if_neg hte]
  by_cases hlen : (pyWords text).length ≤ cs
  · rw [if_pos hlen]
    exact ⟨[text], rfl, by simp⟩
  · rw [if_neg hlen]
    have hs := chunkTextLoop_isSome cs co (pyWords text) hco
      ((pyWords text).length + 2) 0 (by omega) (by omega) (by push_cast; omega)
    rcases Option.isSome_iff_exists.mp hs with ⟨chunks, hch⟩
    refine ⟨chunks, hch, ?_⟩
    have := chunkTextLoop_coverage cs co (pyWords text) (pyWords_isWord text)
      hco ((pyWords text).length + 2) 0 chunks (by omega) hch
    simpa using this

theorem joinWords_single (w : List Char) : joinWords [w] = w := rfl

theorem overlapTail_subset (co : Nat) (ws : List (List Char)) :
    ∀ x ∈ overlapTail co ws, x ∈ ws := by
  intro x hx
  unfold overlapTail at hx
  split at hx
  · exact hx
  · exact List.drop_subset _ _ hx

theorem overlapTail_length_le (co : Nat) (hco : 1 ≤ co)
    (ws : List (List Char)) : (overlapTail co ws).length ≤ co := by
  unfold overlapTail
  rw [if_neg (by omega), List.length_drop]
  omega

theorem sentStep_inv (cs co : Nat) (hco : 1 ≤ co) (st st2 : SentState)
    (sentence : List Char) (hinv : SentInv cs co st)
    (h : sentStep cs co st sentence = some st2) : SentInv cs co st2 := by
  obtain ⟨hchunks, hsize, hbound⟩ := hinv
  unfold sentStep at h
  by_cases hfit : st.size + (pyWords sentence).length ≤ cs
  · rw [if_pos hfit] at h
    simp only [Option.some.injEq] at h
    subst h
    refine ⟨hchunks, ?_, by simp only; omega⟩
    simp only
    rw [wordCount_join_append, hsize]
  · rw [if_neg hfit] at h
    have hchunks1 : ∀ c ∈ (if st.current = [] then st.chunks
        else st.chunks ++ [joinWords st.current]),
        (pyWords c).length ≤ cs + co := by
      split
      · exact hchunks
      · intro c hc
        rcases List.mem_append.mp hc with hc | hc
        · exact hchunks c hc
        · simp only [List.mem_singleton] at hc
          subst hc
          omega
    by_cases hss : (pyWords sentence).length ≤ cs
    · rw [if_pos hss] at h
      simp only [Option.some.injEq] at h
      subst h
      refine ⟨hchunks1, rfl, ?_⟩
      simp only
      cases hlast : (if st.current = [] then st.chunks
          else st.chunks ++ [joinWords st.current]).getLast? with
      | none =>
        simp only [joinWords_single, if_true]
        omega
      | some prev =>
        simp only
        by_cases how : overlapTail co (pyWords prev) = []
        · rw [if_pos how, joinWords_single]
          omega
        · rw [if_neg how, wordCount_join_pair,
            pyWords_joinWords _ (fun w hw =>
              pyWords_isWord prev w (overlapTail_subset co _ w hw))]
          have := overlapTail_length_le co hco (pyWords prev)
          omega
    · rw [if_neg hss] at h
      cases hct : chunk_text cs co sentence with
      | none => rw [hct] at h; cases h
      | some subs =>
        rw [hct] at h
        simp only [Option.some.injEq] at h
        subst h
        refine ⟨?_, rfl, Nat.zero_le _⟩
        intro c hc
        rcases List.mem_append.mp hc with hc | hc
        · exact hchunks1 c hc
        · have := chunk_text_bound cs co sentence subs hct c hc
          omega

theorem sentLoop_inv (cs co : Nat) (hco : 1 ≤ co) :
    ∀ (sentences : List (List Char)) (st st2 : SentState),
      SentInv cs co st → sentLoop cs co st sentences = some st2 →
      SentInv cs co st2 := by
  intro sentences
  induction sentences with
  | nil =>
    intro st st2 hinv h
    simp only [sentLoop, Option.some.injEq] at h
    subst h
    exact hinv
  | cons s rest ih =>
    intro st st2 hinv h
    unfold sentLoop at h
    cases hstep : sentStep cs co st s with
    | none => rw [hstep] at h; cases h
    | some stm =>
      rw [hstep] at h
      exact ih stm st2 (sentStep_inv cs co hco st stm s hinv hstep) h

/-- C1 (amended): for chunk_overlap at least 1, every chunk produced by
chunk_by_sentences contains at most chunk_size + chunk_overlap words:
overlap-seeded chunks can exceed chunk_size by up to chunk_overlap words,
and word-window fallback sub-chunks stay within chunk_size. -/
theorem chunk_by_sentences_bound (cs co : Nat) (text : List Char)
    (hco : 1 ≤ co) (chunks : List (List Char))
    (h : chunk_by_sentences cs co text = some chunks) :
    ∀ c ∈ chunks, (pyWords c).length ≤ cs + co := by
  unfold chunk_by_sentences at h
  by_cases hte : text = []
  · rw [if_pos hte] at h
    simp only [Option.some.injEq] at h
    subst h
    simp
  · rw [if_neg hte] at h
    cases hloop : sentLoop cs co ⟨[], [], 0⟩ (splitSentences text) with
    | none => rw [hloop] at h; cases h
    | some st =>
      rw [hloop] at h
      simp only [Option.some.injEq] at h
      subst h
      have hinv := sentLoop_inv cs co hco (splitSentences text) ⟨[], [], 0⟩ st
        ⟨by simp, rfl, Nat.zero_le _⟩ hloop
      obtain ⟨hchunks, hsize, hbound⟩ := hinv
      intro c hc
      split at hc
      · exact hchunks c hc
      · rcases List.mem_append.mp hc with hc | hc
        · exact hchunks c hc
        · simp only [List.mem_singleton] at hc
          subst hc
          omega

/-- C1 witness: the amended bound instantiated at chunk_size 4,
chunk_overlap 1 on a concrete two-sentence text. -/
theorem chunk_by_sentences_bound_witness :
    1 ≤ 1 ∧ ∀ c ∈ [("a b c d.".data), ("d. e f g h.".data)],
      (pyWords c).length ≤ 4 + 1 :=
  ⟨le_refl 1, chunk_by_sentences_bound 4 1 ("a b c d. e f g h.".data)
    (le_refl 1) [("a b c d.".data), ("d. e f g h.".data)] (by decide)⟩

/-- C1 counterexample: with chunk_size 4 and chunk_overlap 1, on a text
whose sentences each have at most 4 words, chunk_by_sentences emits the
chunk "d. e f g h." of 5 words, exceeding chunk_size even though no single
sentence is longer than chunk_size (so the claimed word-window exception
does not apply). -/
theorem chunk_by_sentences_exceeds_chunk_size :
    chunk_by_sentences 4 1 ("a b c d. e f g h.".data)
        = some [("a b c d.".data), ("d. e f g h.".data)] ∧
    (pyWords ("d. e f g h.".data)).length = 5 ∧
    (∀ s ∈ splitSentences ("a b c d. e f g h.".data),
      (pyWords s).length ≤ 4) := by
  refine ⟨by decide, by decide, by decide⟩

/-- C2: the code has no guard for chunk_overlap ≥ chunk_size: with
chunk_size = 2 and chunk_overlap = 2 on the three-word text "a b c" the
while-loop of chunk_text makes no forward progress and never terminates
(no amount of fuel makes it return), contradicting the claim that the
configuration is rejected or the loop terminates. -/
theorem chunk_text_no_guard_loops_forever :
    (∀ fuel : Nat, chunkTextLoop 2 2 (pyWords ("a b c".data)) 0 fuel = none) ∧
    chunk_text 2 2 ("a b c".data) = none := by
  refine ⟨?_, by decide⟩
  have hwords : pyWords ("a b c".data) = [['a'], ['b'], ['c']] := by decide
  rw [hwords]
  intro fuel
  induction fuel with
  | zero => rfl
  | succ f ih =>
    unfold chunkTextLoop
    norm_num
    rw [ih]

/-- C4: for a nonempty text and chunk_overlap < chunk_size, chunk_text
terminates and the word sequence of the original text is a sublist of the
concatenated word sequences of the chunks: every word appears in some
chunk, in the original order, and the final partial window is emitted. -/
theorem chunk_text_covers_all_words (cs co : Nat) (text : List Char)
    (hco : co < cs) (hte : text ≠ []) :
    ∃ chunks, chunk_text cs co text = some chunks ∧
      List.Sublist (pyWords text) ((chunks.map pyWords).flatten) :=
  chunk_text_coverage cs co text hco hte

/-- C4 witness: coverage instantiated at chunk_size 2, chunk_overlap 1 on
the concrete text "a b c". -/
theorem chunk_text_covers_all_words_witness :
    1 < 2 ∧ ("a b c".data ≠ ([] : List Char)) ∧
    ∃ chunks, chunk_text 2 1 ("a b c".data) = some chunks ∧
      List.Sublist (pyWords ("a b c".data)) ((chunks.map pyWords).flatten) :=
  ⟨by decide, by decide,
    chunk_text_covers_all_words 2 1 ("a b c".data) (by decide) (by decide)⟩

theorem collapseWsAux_mem (s : List Char) :
    ∀ (b : Bool) (c : Char), c ∈ collapseWsAux b s →
      c = ' ' ∨ isPySpace c = false := by
  induction s with
  | nil => intro b c hc; simp [collapseWsAux] at hc
  | cons d rest ih =>
    intro b c hc
    by_cases hd : isPySpace d
    · cases b with
      | true =>
        simp only [collapseWsAux, hd, if_true] at hc
        exact ih true c hc
      | false =>
        simp only [collapseWsAux, hd, if_true, if_false] at hc
        rcases List.mem_cons.mp hc with h | h
        · left; exact h
        · exact ih true c h
    · have hd' : isPySpace d = false := by simpa using hd
      simp only [collapseWsAux, hd', Bool.false_eq_true, if_false] at hc
      rcases List.mem_cons.mp hc with h | h
      · subst h; right; exact hd'
      · exact ih false c h

theorem not_mem_collapseWs (s : List Char) (c : Char) (hc : isPySpace c = true)
    (hne : c ≠ ' ') : c ∉ collapseWs s := by
  intro h
  rcases collapseWsAux_mem s false c h with h1 | h1
  · exact hne h1
  · rw [hc] at h1; cases h1

theorem replaceCRLF_of_no_cr (s : List Char) (h : '\r' ∉ s) :
    replaceCRLF s = s := by
  induction s with
  | nil => rfl
  | cons c rest ih =>
    have hc : c ≠ '\r' := fun he => h (he ▸ List.mem_cons_self c rest)
    cases rest with
    | nil => rfl
    | cons d rest2 =>
      have : replaceCRLF (c :: d :: rest2)
          = c :: replaceCRLF (d :: rest2) := by
        simp only [replaceCRLF]
        rw [if_neg (fun hand => hc hand.1)]
      rw [this, ih (fun hm => h (List.mem_cons_of_mem _ hm))]

theorem replaceCR_of_no_cr (s : List Char) (h : '\r' ∉ s) :
    replaceCR s = s := by
  induction s with
  | nil => rfl
  | cons c rest ih =>
    have hc : ¬ c = '\r' := fun he => h (he ▸ List.mem_cons_self c rest)
    unfold replaceCR
    simp only [List.map_cons]
    rw [if_neg hc]
    have := ih (fun hm => h (List.mem_cons_of_mem _ hm))
    unfold replaceCR at this
    rw [this]

theorem collapseNlAux_of_no_nl (s : List Char) (h : '\n' ∉ s) :
    ∀ k, collapseNlAux k s = s := by
  induction s with
  | nil => intro k; rfl
  | cons c rest ih =>
    intro k
    have hc : c ≠ '\n' := fun he => h (he ▸ List.mem_cons_self c rest)
    unfold collapseNlAux
    rw [if_neg hc, ih (fun hm => h (List.mem_cons_of_mem _ hm))]

theorem mem_of_mem_pyStrip (s : List Char) (c : Char) (h : c ∈ pyStrip s) :
    c ∈ s := by
  unfold pyStrip at h
  rw [List.mem_reverse] at h
  have h1 := (List.dropWhile_sublist _).subset h
  rw [List.mem_reverse] at h1
  exact (List.dropWhile_sublist _).subset h1

/-- C5 (amended): the whitespace-collapsing first step of clean_text
already replaces every newline by a space, so the CRLF/CR normalization and
the newline-run capping steps are no-ops and the output of clean_text never
contains a newline or carriage return; an input with three or more
consecutive newlines yields a single space at that position, not two
newlines. -/
theorem clean_text_newline_steps_dead (s : List Char) :
    clean_text s = pyStrip (stripCtrl (collapseWs s)) ∧
    '\n' ∉ clean_text s ∧ '\r' ∉ clean_text s := by
  have hnr : '\r' ∉ stripCtrl (collapseWs s) := fun h =>
    not_mem_collapseWs s '\r' rfl (by decide) (List.mem_of_mem_filter h)
  have hnn : '\n' ∉ stripCtrl (collapseWs s) := fun h =>
    not_mem_collapseWs s '\n' rfl (by decide) (List.mem_of_mem_filter h)
  have heq : clean_text s = pyStrip (stripCtrl (collapseWs s)) := by
    by_cases hs : s = []
    · subst hs; rfl
    · unfold clean_text collapseNl
      rw [if_neg hs, replaceCRLF_of_no_cr _ hnr, replaceCR_of_no_cr _ hnr,
        collapseNlAux_of_no_nl _ hnn]
  refine ⟨heq, ?_, ?_⟩
  · rw [heq]; intro h; exact hnn (mem_of_mem_pyStrip _ _ h)
  · rw [heq]; intro h; exact hnr (mem_of_mem_pyStrip _ _ h)

/-- C5 counterexample: on the input with three consecutive newlines the
output of clean_text is a single space between the words, not two
consecutive newlines as the claim states. -/
theorem clean_text_collapses_newlines_to_space :
    clean_text ("a\n\n\nb".data) = ("a b".data) ∧
    clean_text ("a\n\n\nb".data) ≠ ("a\n\nb".data) ∧
    '\n' ∉ clean_text ("a\n\n\nb".data) := by
  refine ⟨by decide, by decide, by decide⟩


/-- C3: the end-to-end example: with chunk_size 4 and chunk_overlap 1,
process_document on document d1 (content "Sentence one. Sentence two.
Sentence three.") returns exactly two ProcessedChunks: d1_chunk_0 with
content "Sentence one. Sentence two." and chunk_index 0, and d1_chunk_1
with content "two. Sentence three." (seeded with the 1-word overlap tail
"two.") and chunk_index 1, both with total_chunks 2. -/
theorem process_document_d1_example :
    process_document 4 1 docD1 = some
      [{ id := "d1_chunk_0".data,
         content := "Sentence one. Sentence two.".data,
         title := "t".data, url := "u".data, author := "a".data,
         source := "s".data, created_date := "c".data,
         modified_date := "m".data, tags := [], space_key := [],
         metadata := [("original_doc_id".data, "d1".data)],
         chunk_index := 0, total_chunks := 2 },
       { id := "d1_chunk_1".data,
         content := "two. Sentence three.".data,
         title := "t".data, url := "u".data, author := "a".data,
         source := "s".data, created_date := "c".data,
         modified_date := "m".data, tags := [], space_key := [],
         metadata := [("original_doc_id".data, "d1".data)],
         chunk_index := 1, total_chunks := 2 }] := by
  decide

/-- C8: every successful run of process_document yields chunks whose
chunk_index values are exactly 0..n-1 in order, whose total_chunks all
equal n, and whose ids are the document id followed by _chunk_ and the
index. -/
theorem process_document_index_invariants (cs co : Nat) (document : Document)
    (pcs : List ProcessedChunk) (n : Nat)
    (h : process_document cs co document = some pcs)
    (hn : pcs.length = n) (h1 : 1 ≤ n) :
    pcs.map (fun pc => pc.chunk_index) = List.range n ∧
    (∀ pc ∈ pcs, pc.total_chunks = n) ∧
    (∀ pc ∈ pcs, pc.id
        = document.id ++ ("_chunk_".data) ++ natStr pc.chunk_index) := by
  unfold process_document at h
  by_cases hcl : clean_text document.content = []
  · rw [if_pos hcl] at h
    simp only [Option.some.injEq] at h
    subst h
    simp at hn
    omega
  · rw [if_neg hcl] at h
    cases hcb : chunk_by_sentences cs co (clean_text document.content) with
    | none => rw [hcb] at h; cases h
    | some chunks =>
      rw [hcb] at h
      simp only [] at h
      by_cases hce : chunks = []
      · rw [if_pos hce] at h
        simp only [Option.some.injEq] at h
        subst h
        simp at hn
        omega
      · rw [if_neg hce] at h
        simp only [Option.some.injEq] at h
        subst h
        have h2 : n = chunks.length := by
          rw [← hn]; simp
        refine ⟨?_, ?_, ?_⟩
        · rw [List.map_map, h2, ← List.enum_map_fst chunks]
          rfl
        · intro pc hpc
          rcases List.mem_map.mp hpc with ⟨p, hp, hpe⟩
          subst hpe
          show chunks.length = n
          omega
        · intro pc hpc
          rcases List.mem_map.mp hpc with ⟨p, hp, hpe⟩
          subst hpe
          rfl

/-- C8 witness: the invariants instantiated on the concrete example
document, which produces two chunks. -/
theorem process_document_index_invariants_witness :
    d1Chunks.map (fun pc => pc.chunk_index) = List.range 2 ∧
    (∀ pc ∈ d1Chunks, pc.total_chunks = 2) ∧
    (∀ pc ∈ d1Chunks, pc.id
        = docD1.id ++ ("_chunk_".data) ++ natStr pc.chunk_index) :=
  process_document_index_invariants 4 1 docD1 d1Chunks 2 (by decide)
    (by decide) (by decide)


theorem extractSourcesAux_eq_firstByUrl :
    ∀ (l : List RetrievedChunk) (seen : List (List Char)), [] ∉ seen →
      extractSourcesAux l seen
        = (firstByUrl (l.filter (fun c => c.url ∉ seen))).map mkCitation := by
  intro l
  induction l with
  | nil => intro seen _; simp [extractSourcesAux, firstByUrl]
  | cons c rest ih =>
    intro seen hseen
    by_cases hcu : c.url = []
    · have hfil : (c :: rest).filter (fun c2 => c2.url ∉ seen)
          = c :: rest.filter (fun c2 => c2.url ∉ seen) :=
        List.filter_cons_of_pos (by simp only [hcu, decide_eq_true_eq]; exact hseen)
      rw [hfil]
      simp only [extractSourcesAux, firstByUrl, if_pos hcu]
      rw [if_neg (fun h => h.1 hcu)]
      exact ih seen hseen
    · by_cases hmem : c.url ∈ seen
      · have hfil : (c :: rest).filter (fun c2 => c2.url ∉ seen)
            = rest.filter (fun c2 => c2.url ∉ seen) :=
          List.filter_cons_of_neg (by simp [hmem])
        rw [hfil]
        simp only [extractSourcesAux]
        rw [if_neg (fun h => h.2 hmem)]
        exact ih seen hseen
      · have hfil : (c :: rest).filter (fun c2 => c2.url ∉ seen)
            = c :: rest.filter (fun c2 => c2.url ∉ seen) :=
          List.filter_cons_of_pos (by simp [hmem])
        rw [hfil]
        simp only [extractSourcesAux, firstByUrl]
        rw [if_pos ⟨hcu, hmem⟩, if_neg hcu]
        have hcomp : (rest.filter (fun c2 => c2.url ∉ seen)).filter
              (fun c2 => c2.url ≠ c.url)
            = rest.filter (fun c2 => c2.url ∉ c.url :: seen) := by
          rw [List.filter_filter]
          apply List.filter_congr
          intro x _
          simp [List.mem_cons, not_or]
        rw [hcomp, List.map_cons]
        have hseen2 : ([] : List Char) ∉ c.url :: seen := by
          intro hx
          rcases List.mem_cons.mp hx with hx | hx
          · exact hcu hx.symm
          · exact hseen hx
        rw [ih (c.url :: seen) hseen2]

theorem firstByUrl_subset (l : List RetrievedChunk) :
    ∀ x ∈ firstByUrl l, x ∈ l := by
  induction l using firstByUrl.induct with
  | case1 => simp [firstByUrl]
  | case2 c rest hcu ih =>
    intro x hx
    simp only [firstByUrl, if_pos hcu] at hx
    exact List.mem_cons_of_mem _ (ih x hx)
  | case3 c rest hcu ih =>
    intro x hx
    simp only [firstByUrl, if_neg hcu] at hx
    rcases List.mem_cons.mp hx with h | h
    · simp [h]
    · exact List.mem_cons_of_mem _ (List.mem_of_mem_filter (ih x h))

theorem firstByUrl_urls_nodup (l : List RetrievedChunk) :
    ((firstByUrl l).map (fun c => c.url)).Nodup := by
  induction l using firstByUrl.induct with
  | case1 => simp [firstByUrl]
  | case2 c rest hcu ih => simpa [firstByUrl, hcu] using ih
  | case3 c rest hcu ih =>
    simp only [firstByUrl, if_neg hcu, List.map_cons, List.nodup_cons]
    refine ⟨?_, ih⟩
    intro hmem
    rcases List.mem_map.mp hmem with ⟨x, hx, hxe⟩
    have hxr := firstByUrl_subset _ x hx
    have hxf := List.of_mem_filter hxr
    simp only [decide_eq_true_eq] at hxf
    exact hxf hxe

/-- C9: the sources list is the stable first-seen-per-URL restriction of
the retrieved chunks: it equals the spec-side first-occurrence filter
mapped to citations, its urls are pairwise distinct, and on the concrete
retrieval with urls A, B, A it is exactly A then B. -/
theorem extract_sources_first_seen_per_url :
    (∀ chunks : List RetrievedChunk,
      extract_sources chunks = (firstByUrl chunks).map mkCitation ∧
      ((extract_sources chunks).map (fun s => s.url)).Nodup) ∧
    (extract_sources
        [⟨"x".data, "tA".data, "A".data, "aA".data, "s".data⟩,
         ⟨"y".data, "tB".data, "B".data, "aB".data, "s".data⟩,
         ⟨"z".data, "tA2".data, "A".data, "aA2".data, "s".data⟩]).map
        (fun s => s.url) = ["A".data, "B".data] := by
  have hmain : ∀ chunks : List RetrievedChunk,
      extract_sources chunks = (firstByUrl chunks).map mkCitation := by
    intro chunks
    have h := extractSourcesAux_eq_firstByUrl chunks [] (by simp)
    have hfil : chunks.filter (fun c => c.url ∉ ([] : List (List Char)))
        = chunks := by
      apply List.filter_eq_self.mpr
      intro x _
      simp
    rw [hfil] at h
    exact h
  refine ⟨fun chunks => ⟨hmain chunks, ?_⟩, by decide⟩
  rw [hmain chunks, List.map_map]
  exact firstByUrl_urls_nodup chunks

theorem extractSourcesAux_skip_empty_url
    (c : RetrievedChunk) (hcu : c.url = []) :
    ∀ (pre post : List RetrievedChunk) (seen : List (List Char)),
      extractSourcesAux (pre ++ c :: post) seen
        = extractSourcesAux (pre ++ post) seen := by
  intro pre
  induction pre with
  | nil =>
    intro post seen
    simp only [List.nil_append, extractSourcesAux]
    rw [if_neg (fun h => h.1 hcu)]
  | cons p pre2 ih =>
    intro post seen
    simp only [List.cons_append, extractSourcesAux, List.append_eq]
    by_cases hp : p.url ≠ [] ∧ p.url ∉ seen
    · rw [if_pos hp, if_pos hp, ih]
    · rw [if_neg hp, if_neg hp, ih]

theorem extractSourcesAux_all_empty (chunks : List RetrievedChunk)
    (h : ∀ c ∈ chunks, c.url = []) :
    ∀ seen, extractSourcesAux chunks seen = [] := by
  induction chunks with
  | nil => intro seen; rfl
  | cons c rest ih =>
    intro seen
    simp only [extractSourcesAux]
    rw [if_neg (fun hx => hx.1 (h c (by simp)))]
    exact ih (fun x hx => h x (by simp [hx])) seen

theorem joinSep_cons_head (sep p : List Char) (ps : List (List Char)) :
    ∃ t, joinSep sep (p :: ps) = p ++ t := by
  cases ps with
  | nil => exact ⟨[], by simp [joinSep]⟩
  | cons q ps2 => exact ⟨sep ++ joinSep sep (q :: ps2), by simp [joinSep]⟩

/-- C10: a retrieved chunk with an empty (or, equivalently under the
dict-get default, missing) url contributes no source citation, and when
every retrieved chunk has an empty url, generate_answer returns an empty
sources list even though the chunks were retrieved and rendered as
Source-numbered context (the context is not the no-information message). -/
theorem empty_url_chunks_yield_no_sources :
    (∀ (pre post : List RetrievedChunk) (c : RetrievedChunk), c.url = [] →
      extract_sources (pre ++ c :: post) = extract_sources (pre ++ post)) ∧
    (∀ (deployment question system_prompt : List Char)
        (chat : List Char → List Char → ChatReply)
        (chunks : List RetrievedChunk),
      chunks ≠ [] → (∀ c ∈ chunks, c.url = []) →
      (generate_answer deployment chat question chunks system_prompt).sources
          = [] ∧
      build_context chunks ≠ ("No relevant information found.".data)) := by
  constructor
  · intro pre post c hcu
    exact extractSourcesAux_skip_empty_url c hcu pre post []
  · intro deployment question system_prompt chat chunks hne hall
    constructor
    · show extract_sources chunks = []
      exact extractSourcesAux_all_empty chunks hall []
    · cases chunks with
      | nil => cases hne rfl
      | cons c rest =>
        intro heq
        have h1 : build_context (c :: rest)
            = joinSep ("\n---\n".data)
              ((c :: rest).enum.map (fun p => contextPart (p.1 + 1) p.2)) := by
          unfold build_context
          rw [if_neg (by simp)]
        have h2 : (c :: rest).enum.map (fun p => contextPart (p.1 + 1) p.2)
            = contextPart 1 c
              :: ((rest.enumFrom 1).map (fun p => contextPart (p.1 + 1) p.2)) := by
          rw [List.enum_cons]
          simp
        rcases joinSep_cons_head ("\n---\n".data) (contextPart 1 c)
            ((rest.enumFrom 1).map (fun p => contextPart (p.1 + 1) p.2)) with
          ⟨t, ht⟩
        rw [h1, h2, ht] at heq
        have h4 : (contextPart 1 c ++ t).head? = some '[' := rfl
        rw [heq] at h4
        simp at h4

/-- C6: run_full_sync distinguishes an empty source from a systemic
embedding failure.  With zero fetched documents it returns success true
and all-zero counts, and the embedding and upload stages are not in the
executed trace; when parsing produced a nonempty chunk list but the
embedded result set is empty, it returns success false with zero uploads
and the upload stage is not in the trace. -/
theorem run_full_sync_empty_source_vs_embed_failure {E : Type} (cs co : Nat)
    (env : SyncEnv E) :
    (env.fetched = [] →
      run_full_sync cs co env
          = some (⟨0, 0, 0, 0, 0, [], true⟩,
              [SyncStep.createIndex, SyncStep.clearIndex, SyncStep.connect,
               SyncStep.fetchDocs]) ∧
      SyncStep.embedChunks ∉ ([SyncStep.createIndex, SyncStep.clearIndex,
        SyncStep.connect, SyncStep.fetchDocs] : List SyncStep) ∧
      SyncStep.uploadChunks ∉ ([SyncStep.createIndex, SyncStep.clearIndex,
        SyncStep.connect, SyncStep.fetchDocs] : List SyncStep)) ∧
    (∀ chunks : List ProcessedChunk,
      process_documents cs co env.fetched = some chunks → chunks ≠ [] →
      embed_chunks env.gen env.batch_size chunks = [] →
      ∃ st tr, run_full_sync cs co env = some (st, tr) ∧
        st.success = false ∧ st.chunks_uploaded = 0 ∧ st.failed_uploads = 0 ∧
        st.chunks_embedded = 0 ∧ SyncStep.uploadChunks ∉ tr) := by
  constructor
  · intro hf
    refine ⟨?_, by decide, by decide⟩
    unfold run_full_sync
    rw [hf]
    rfl
  · intro chunks hpd hne hemb
    have hfne : env.fetched ≠ [] := by
      intro hf
      rw [hf] at hpd
      simp only [process_documents, Option.some.injEq] at hpd
      exact hne hpd.symm
    unfold run_full_sync
    rw [if_neg hfne, hpd]
    simp only []
    rw [if_neg hne, hemb]
    exact ⟨_, _, rfl, rfl, rfl, rfl, rfl, by decide⟩

/-- C6 witness: the two branches instantiated on the concrete
environments: an empty source, and a one-document source whose embedding
oracle always fails. -/
theorem run_full_sync_empty_source_vs_embed_failure_witness :
    (run_full_sync 4 1 env0
        = some (⟨0, 0, 0, 0, 0, [], true⟩,
            [SyncStep.createIndex, SyncStep.clearIndex, SyncStep.connect,
             SyncStep.fetchDocs])) ∧
    (∃ st tr, run_full_sync 4 1 env1 = some (st, tr) ∧
      st.success = false ∧ st.chunks_uploaded = 0 ∧ st.failed_uploads = 0 ∧
      st.chunks_embedded = 0 ∧ SyncStep.uploadChunks ∉ tr) :=
  ⟨((run_full_sync_empty_source_vs_embed_failure 4 1 env0).1 rfl).1,
   (run_full_sync_empty_source_vs_embed_failure 4 1 env1).2 d1Chunks
     (by decide) (by decide) (by decide)⟩

/-- C7: a batch whose embedding call throws after retries is skipped and
every later batch is still processed: with batch size 2 and six chunks
forming three batches of which exactly the second fails, embed_chunks
pairs exactly the chunks of batches 1 and 3 with their vectors; and on any
run with a nonempty chunk list, run_full_sync reports chunks_embedded
equal to the length of the embed_chunks result. -/
theorem embed_chunks_failed_batch_skipped :
    (∀ (E : Type) (k1 k2 k3 k4 k5 k6 : ProcessedChunk) (e1 e2 e5 e6 : E)
        (gen : List (List Char) → Option (List E)),
      gen [k1.content, k2.content] = some [e1, e2] →
      gen [k3.content, k4.content] = none →
      gen [k5.content, k6.content] = some [e5, e6] →
      embed_chunks gen 2 [k1, k2, k3, k4, k5, k6]
          = [(k1, e1), (k2, e2), (k5, e5), (k6, e6)]) ∧
    (∀ (E : Type) (cs co : Nat) (env : SyncEnv E)
        (chunks : List ProcessedChunk),
      process_documents cs co env.fetched = some chunks → chunks ≠ [] →
      ∃ st tr, run_full_sync cs co env = some (st, tr) ∧
        st.chunks_embedded
            = (embed_chunks env.gen env.batch_size chunks).length) := by
  constructor
  · intro E k1 k2 k3 k4 k5 k6 e1 e2 e5 e6 gen h1 h2 h3
    simp [embed_chunks, embedLoop, h1, h2, h3]
  · intro E cs co env chunks hpd hne
    have hfne : env.fetched ≠ [] := by
      intro hf
      rw [hf] at hpd
      simp only [process_documents, Option.some.injEq] at hpd
      exact hne hpd.symm
    unfold run_full_sync
    rw [if_neg hfne, hpd]
    simp only []
    rw [if_neg hne]
    by_cases hemp : (embed_chunks env.gen env.batch_size chunks).isEmpty
    · rw [if_pos hemp]
      exact ⟨_, _, rfl, rfl⟩
    · rw [if_neg hemp]
      exact ⟨_, _, rfl, rfl⟩

/-- C7 witness: the batch-skipping behaviour on six concrete chunks with
the concrete oracle failing on batch 2, and the chunks_embedded count on
the concrete one-document environment. -/
theorem embed_chunks_failed_batch_skipped_witness :
    (embed_chunks tGen 2
        [tChunk 1, tChunk 2, tChunk 3, tChunk 4, tChunk 5, tChunk 6]
        = [(tChunk 1, 1), (tChunk 2, 1), (tChunk 5, 1), (tChunk 6, 1)]) ∧
    (∃ st tr, run_full_sync 4 1 env1 = some (st, tr) ∧
      st.chunks_embedded
          = (embed_chunks env1.gen env1.batch_size d1Chunks).length) :=
  ⟨embed_chunks_failed_batch_skipped.1 Nat (tChunk 1) (tChunk 2) (tChunk 3)
      (tChunk 4) (tChunk 5) (tChunk 6) 1 1 1 1 tGen (by decide) (by decide)
      (by decide),
   embed_chunks_failed_batch_skipped.2 Nat 4 1 env1 d1Chunks (by decide)
     (by decide)⟩


/-- C10 witness: inserting the empty-url chunk between no chunks changes
nothing, and a retrieval of just that chunk yields empty sources while its
rendered context is a real Source block. -/
theorem empty_url_chunks_yield_no_sources_witness :
    (extract_sources ([] ++ noUrlChunk :: []) = extract_sources ([] ++ [])) ∧
    ((generate_answer [] (fun _ _ => ⟨[], 0, 0, 0⟩) ("q".data)
        [noUrlChunk] []).sources = [] ∧
      build_context [noUrlChunk] ≠ ("No relevant information found.".data)) :=
  ⟨empty_url_chunks_yield_no_sources.1 [] [] noUrlChunk rfl,
   empty_url_chunks_yield_no_sources.2 [] ("q".data) []
     (fun _ _ => ⟨[], 0, 0, 0⟩) [noUrlChunk] (by decide) (by decide)⟩

end Ingestion
